import Mathlib

/-!
# Verification of the GenerateExam core algorithms

Shallow embedding of the two algorithmic components of the exam-authoring tool:

* the category-balanced question allocator
  (`allocateQuestionCountsByCategory` and its helpers, from
  `src/app/admin/papers/create/page.tsx`), and
* the page-image region suggestion pipeline
  (`detectSuggestionRects` / `normalizeSuggestionRects` and their helpers, from
  `src/app/admin/exams/[examId]/edit/page.tsx`).

JavaScript numbers are modelled as rationals (`ℚ`); all values arising in the
embedded code are finite, so the `Number.isFinite` guard branches of the source
can never fire and are noted where they occur.  JavaScript `Map`/record
assignment is modelled by `Function.update` folds, preserving the
later-entry-overrides semantics.  Loops are modelled by structural recursion
with explicit fuel where the source uses `while`.
-/

set_option maxRecDepth 2000
set_option autoImplicit false

deriving instance DecidableEq for Except

namespace GenerateExam

/-! ## Category allocator (papers/create/page.tsx) -/

/-- A category bucket: `{category, candidates}`.  Candidate identity is opaque;
only the count (`candidates.length`) matters to the allocator. -/
structure CategoryBucket where
  category : String
  candidates : List String
deriving DecidableEq, Repr

/-- The observable shape of one ratio-input string as seen by
`parseRatioInputValue`: absent key (`undefined`), empty string (both falsy),
a string whose `Number(...)` is `NaN` or `±Infinity`, or a string whose
`Number(...)` is a finite number `q`. -/
inductive RatioInput where
  | missing
  | empty
  | nonNumeric
  | numeric (q : ℚ)
deriving DecidableEq

/-- `parseRatioInputValue`: falsy or non-finite inputs parse to `0`; finite
numbers are clamped to `[0, 100]` by `Math.max(0, Math.min(100, numeric))`. -/
def parseRatioInputValue : RatioInput → ℚ
  | .missing => 0
  | .empty => 0
  | .nonNumeric => 0
  | .numeric q => max 0 (min 100 q)

/-- JavaScript `Map` building / repeated `map.set`: later entries override
earlier ones; `map.get(k) ?? d` yields `d` for absent keys. -/
def buildMap {α : Type} (d : α) (entries : List (String × α)) : String → α :=
  entries.foldl (fun m p => Function.update m p.1 p.2) (fun _ => d)

/-- `buckets.map((bucket) => bucket.category)`. -/
def categoryOrderOf (buckets : List CategoryBucket) : List String :=
  buckets.map (fun b => b.category)

/-- `availableByCategory`: `new Map(buckets.map((b) => [b.category, b.candidates.length]))`,
read with `?? 0`. -/
def availableMap (buckets : List CategoryBucket) : String → ℕ :=
  buildMap 0 (buckets.map (fun b => (b.category, b.candidates.length)))

/-- `requestedWeightByCategory`: built over `categoryOrder` from the parsed
ratio inputs, read with `?? 0`. -/
def weightMap (buckets : List CategoryBucket) (ratioInputs : String → RatioInput) :
    String → ℚ :=
  buildMap 0 ((categoryOrderOf buckets).map
    (fun c => (c, parseRatioInputValue (ratioInputs c))))

/-- `totalWeight`: the parsed weights accumulated over `categoryOrder`
(duplicated categories are counted once per occurrence, as in the source). -/
def totalWeightOf (buckets : List CategoryBucket) (ratioInputs : String → RatioInput) : ℚ :=
  ((categoryOrderOf buckets).map (fun c => parseRatioInputValue (ratioInputs c))).sum

/-- `idealByCategory`: `(requestedCount * weight) / totalWeight` per category,
read with `?? 0`. -/
def idealMap (buckets : List CategoryBucket) (ratioInputs : String → RatioInput)
    (requestedCount : ℕ) : String → ℚ :=
  buildMap 0 ((categoryOrderOf buckets).map
    (fun c => (c, (requestedCount * weightMap buckets ratioInputs c) /
      totalWeightOf buckets ratioInputs)))

/-- Initial allocation: `Math.min(available, Math.floor(ideal))` per category.
Ideals are never negative here (weights are clamped to `[0,100]` and division
by a nonpositive total only occurs after the error check, while `ℚ` division
by zero is `0`), so `Math.floor` is `Int.toNat ∘ Rat.floor`. -/
def initialAllocMap (buckets : List CategoryBucket) (ratioInputs : String → RatioInput)
    (requestedCount : ℕ) : String → ℕ :=
  buildMap 0 ((categoryOrderOf buckets).map
    (fun c => (c, min (availableMap buckets c)
      (Int.toNat ⌊idealMap buckets ratioInputs requestedCount c⌋))))

/-- One step of the greedy selection scan: skip a full category, otherwise
compare the score `ideal[c] - allocated[c]` against the best so far
(`none` stands for the initial `bestScore = -Infinity`, which every eligible
category beats; strict `>` keeps the earlier candidate on ties). -/
def greedyStep (ideal : String → ℚ) (avail alloc : String → ℕ)
    (best : Option String) (c : String) : Option String :=
  if avail c ≤ alloc c then best
  else
    match best with
    | none => some c
    | some b =>
      if ideal b - (alloc b : ℚ) < ideal c - (alloc c : ℚ) then some c else best

/-- One scan of the greedy selection loop body over `categoryOrder`. -/
def greedyPick (order : List String) (ideal : String → ℚ) (avail alloc : String → ℕ) :
    Option String :=
  order.foldl (greedyStep ideal avail alloc) none

/-- The greedy `while (remaining > 0)` loop: each iteration either increments
the picked category and decrements `remaining`, or breaks when no category has
spare capacity.  `remaining` itself is the fuel. -/
def greedyLoop (order : List String) (ideal : String → ℚ) (avail : String → ℕ) :
    (String → ℕ) → ℕ → (String → ℕ) × ℕ
  | alloc, 0 => (alloc, 0)
  | alloc, fuel + 1 =>
    match greedyPick order ideal avail alloc with
    | none => (alloc, fuel + 1)
    | some c => greedyLoop order ideal avail (Function.update alloc c (alloc c + 1)) fuel

/-- Inner fallback-sweep loop for one category:
`while (remaining > 0 && allocated < available) { allocated += 1; remaining -= 1; }`;
arguments are `(remaining, allocated, available)`. -/
def sweepCategory : ℕ → ℕ → ℕ → ℕ × ℕ
  | 0, alloc, _ => (alloc, 0)
  | rem + 1, alloc, avail =>
    if alloc < avail then sweepCategory rem (alloc + 1) avail else (alloc, rem + 1)

/-- The fallback sweep over `categoryOrder` in original order.  The source's
early `break` when `remaining` reaches `0` is behaviourally the identity on
the remaining iterations (`sweepCategory 0` changes nothing), so a plain fold
is equivalent. -/
def sweepLoop (order : List String) (avail : String → ℕ) :
    (String → ℕ) × ℕ → (String → ℕ) × ℕ :=
  fun start =>
    order.foldl
      (fun state c =>
        let p := sweepCategory state.2 (state.1 c) (avail c)
        (Function.update state.1 c p.1, p.2))
      start

/-- One JavaScript record assignment `acc[key] = value`: overwrite in place if
the key exists (keeping its position), otherwise append. -/
def recordSet (acc : List (String × ℕ)) (key : String) (value : ℕ) : List (String × ℕ) :=
  if acc.any (fun p => p.1 = key) then
    acc.map (fun p => if p.1 = key then (p.1, value) else p)
  else acc ++ [(key, value)]

/-- The final `categoryOrder.reduce((acc, c) => { acc[c] = allocated(c); ... }, {})`. -/
def buildRecord (order : List String) (alloc : String → ℕ) : List (String × ℕ) :=
  order.foldl (fun acc c => recordSet acc c (alloc c)) []

/-- The allocator's first error: `"카테고리 비율 합계는 0보다 커야 합니다."`
(total ratio must be positive). -/
def weightErrorMsg : String := "카테고리 비율 합계는 0보다 커야 합니다."

/-- The allocator's second error:
`"카테고리별 가용 문항 수가 부족해 요청 수량을 채울 수 없습니다."`
(per-category availability is insufficient for the requested count). -/
def shortfallErrorMsg : String := "카테고리별 가용 문항 수가 부족해 요청 수량을 채울 수 없습니다."

/-- The allocation state after the initial allocation, the greedy loop and the
conditional fallback sweep: the per-category allocation function together with
the final `remaining`.  `remaining` is a natural number: the source's integer
`remaining = requestedCount - totalAllocated` is only ever tested for `> 0`
and decremented while positive, so truncated subtraction is behaviourally
identical. -/
def allocResultState (buckets : List CategoryBucket) (ratioInputs : String → RatioInput)
    (requestedCount : ℕ) : (String → ℕ) × ℕ :=
  let order := categoryOrderOf buckets
  let avail := availableMap buckets
  let alloc0 := initialAllocMap buckets ratioInputs requestedCount
  let remaining := requestedCount - (order.map alloc0).sum
  let g := greedyLoop order (idealMap buckets ratioInputs requestedCount) avail alloc0 remaining
  if 0 < g.2 then sweepLoop order avail g else g

/-- `allocateQuestionCountsByCategory`: fail fast when the total weight is not
positive; otherwise run the initial/greedy/sweep allocation and fail when
`remaining` is still positive, else build the result record over
`categoryOrder`.  Thrown `Error`s are modelled as `Except.error` carrying the
source's message string. -/
def allocateQuestionCountsByCategory (buckets : List CategoryBucket)
    (requestedCount : ℕ) (ratioInputs : String → RatioInput) :
    Except String (List (String × ℕ)) :=
  if totalWeightOf buckets ratioInputs ≤ 0 then .error weightErrorMsg
  else
    let s := allocResultState buckets ratioInputs requestedCount
    if 0 < s.2 then .error shortfallErrorMsg
    else .ok (buildRecord (categoryOrderOf buckets) s.1)

/-! ### Concrete allocator instances -/

/-- Scenario B buckets: category `A` with 3 candidates, `B` with 10. -/
def scenarioB_buckets : List CategoryBucket :=
  [⟨"A", ["a1", "a2", "a3"]⟩,
   ⟨"B", ["b1", "b2", "b3", "b4", "b5", "b6", "b7", "b8", "b9", "b10"]⟩]

/-- Ratio inputs `{A: "60", B: "40"}`. -/
def scenarioB_inputs : String → RatioInput := fun c =>
  if c = "A" then .numeric 60 else if c = "B" then .numeric 40 else .missing

/-- Two buckets carrying the same category label `A`, 5 candidates each. -/
def dupPair_buckets : List CategoryBucket :=
  [⟨"A", ["a1", "a2", "a3", "a4", "a5"]⟩, ⟨"A", ["a6", "a7", "a8", "a9", "a10"]⟩]

/-- Ratio inputs `{A: "50"}`. -/
def dupA_inputs : String → RatioInput := fun c =>
  if c = "A" then .numeric 50 else .missing

/-- Duplicated category `A` (3 + 3 candidates) plus `B` with 1 candidate. -/
def dupShort_buckets : List CategoryBucket :=
  [⟨"A", ["a1", "a2", "a3"]⟩, ⟨"A", ["x1", "x2", "x3"]⟩, ⟨"B", ["b1"]⟩]

/-- Ratio inputs `{A: "0", B: "100"}`. -/
def dupShort_inputs : String → RatioInput := fun c =>
  if c = "A" then .numeric 0 else if c = "B" then .numeric 100 else .missing

/-- A single bucket `A` with 2 candidates. -/
def twoA_buckets : List CategoryBucket := [⟨"A", ["a1", "a2"]⟩]

/-- Ratio inputs `{A: "100"}`. -/
def fullA_inputs : String → RatioInput := fun c =>
  if c = "A" then .numeric 100 else .missing

/-- A single bucket `A` with 1 candidate. -/
def oneA_buckets : List CategoryBucket := [⟨"A", ["a1"]⟩]

/-- Ratio inputs `{A: "-3"}`, which parse (clamped) to weight `0`. -/
def negA_inputs : String → RatioInput := fun c =>
  if c = "A" then .numeric (-3) else .missing

/-! ## Region detector (exams/[examId]/edit/page.tsx) -/

/-- The caller's display/reference frame size, in JS-number (here `ℚ`)
pixels. -/
structure DisplaySize where
  width : ℚ
  height : ℚ
deriving DecidableEq, Repr

/-- An axis-aligned rectangle in display coordinates. -/
structure DisplayRect where
  x : ℚ
  y : ℚ
  width : ℚ
  height : ℚ
deriving DecidableEq, Repr

/-- `MIN_BOX_DISPLAY_SIZE = 20`, the default `minSize` of
`clampDisplayRect` (every call in the source uses the default). -/
def MIN_BOX_DISPLAY_SIZE : ℚ := 20

/-- `clampDisplayRect`: clamp a rectangle into the frame with a minimum size.
The source first returns a fallback when any coordinate is not finite; `ℚ`
values are always finite, so that branch cannot fire and is omitted. -/
def clampDisplayRect (rect : DisplayRect) (size : DisplaySize) (minSize : ℚ) :
    DisplayRect :=
  let maxWidth := max 1 size.width
  let maxHeight := max 1 size.height
  let minWidth := min minSize maxWidth
  let minHeight := min minSize maxHeight
  let width := min maxWidth (max minWidth rect.width)
  let height := min maxHeight (max minHeight rect.height)
  let x := min (maxWidth - width) (max 0 rect.x)
  let y := min (maxHeight - height) (max 0 rect.y)
  ⟨x, y, width, height⟩

/-- `rectArea`. -/
def rectArea (rect : DisplayRect) : ℚ :=
  max 0 rect.width * max 0 rect.height

/-- `intersectionArea`. -/
def intersectionArea (a b : DisplayRect) : ℚ :=
  let left := max a.x b.x
  let top := max a.y b.y
  let right := min (a.x + a.width) (b.x + b.width)
  let bottom := min (a.y + a.height) (b.y + b.height)
  if right ≤ left ∨ bottom ≤ top then 0
  else (right - left) * (bottom - top)

/-- `getIoU`: intersection over union, `0` for degenerate cases. -/
def getIoU (a b : DisplayRect) : ℚ :=
  let overlap := intersectionArea a b
  if overlap ≤ 0 then 0
  else
    let union := rectArea a + rectArea b - overlap
    if union ≤ 0 then 0 else overlap / union

/-- `expandRect`: asymmetric padding (1.2% of width left/right, 0.8% of height
above, 1.6% below), re-clamped to the frame. -/
def expandRect (rect : DisplayRect) (size : DisplaySize) : DisplayRect :=
  let xPad := size.width * 0.012
  let yPadTop := size.height * 0.008
  let yPadBottom := size.height * 0.016
  clampDisplayRect
    ⟨rect.x - xPad, rect.y - yPadTop, rect.width + xPad * 2,
     rect.height + yPadTop + yPadBottom⟩
    size MIN_BOX_DISPLAY_SIZE

/-- The reading-order comparator of `normalizeSuggestionRects` as a relation:
`(a, b) => Math.abs(a.y - b.y) < size.height * 0.015 ? a.x - b.x : a.y - b.y`
compares nonpositively exactly when this relation holds. -/
def readingOrderLE (size : DisplaySize) (a b : DisplayRect) : Prop :=
  if |a.y - b.y| < size.height * 0.015 then a.x ≤ b.x else a.y ≤ b.y

instance readingOrderLE_dec (size : DisplaySize) : DecidableRel (readingOrderLE size) :=
  fun a b =>
    if h : |a.y - b.y| < size.height * 0.015 then
      decidable_of_iff (a.x ≤ b.x) (by unfold readingOrderLE; rw [if_pos h])
    else
      decidable_of_iff (a.y ≤ b.y) (by unfold readingOrderLE; rw [if_neg h])

/-- The comparator of the raw detector's final sort:
`(a, b) => (a.y === b.y ? a.x - b.x : a.y - b.y)`. -/
def rawOrderLE (a b : DisplayRect) : Prop :=
  if a.y = b.y then a.x ≤ b.x else a.y ≤ b.y

instance rawOrderLE_dec : DecidableRel rawOrderLE := fun a b =>
  if h : a.y = b.y then
    decidable_of_iff (a.x ≤ b.x) (by unfold rawOrderLE; rw [if_pos h])
  else
    decidable_of_iff (a.y ≤ b.y) (by unfold rawOrderLE; rw [if_neg h])

/-- The `contains` test of the merge pass: `rect` lies within `base` up to a
2-pixel tolerance on every side. -/
def nearlyContains (base rect : DisplayRect) : Prop :=
  base.x - 2 ≤ rect.x ∧ base.y - 2 ≤ rect.y ∧
  rect.x + rect.width ≤ base.x + base.width + 2 ∧
  rect.y + rect.height ≤ base.y + base.height + 2

instance nearlyContains_dec (base rect : DisplayRect) :
    Decidable (nearlyContains base rect) := by
  unfold nearlyContains
  infer_instance

/-- The union bounding box used when two rectangles merge. -/
def unionRect (base rect : DisplayRect) : DisplayRect :=
  let left := min base.x rect.x
  let top := min base.y rect.y
  let right := max (base.x + base.width) (rect.x + rect.width)
  let bottom := max (base.y + base.height) (rect.y + rect.height)
  ⟨left, top, right - left, bottom - top⟩

/-- The inner loop of the merge pass: scan the merged list in order; at the
first entry with `IoU > 0.32` or near-containment, replace that entry by the
clamped union bounding box and stop; if none matches, append the rectangle. -/
def mergeOne (size : DisplaySize) : List DisplayRect → DisplayRect → List DisplayRect
  | [], rect => [rect]
  | base :: rest, rect =>
    if (0.32 : ℚ) < getIoU base rect ∨ nearlyContains base rect then
      clampDisplayRect (unionRect base rect) size MIN_BOX_DISPLAY_SIZE :: rest
    else base :: mergeOne size rest rect

/-- The first stage of `normalizeSuggestionRects`: clamp every rectangle,
filter by the plausible-size bounds, and sort by reading order.  JS
`Array.prototype.sort` is modelled by insertion sort; the comparator is total
(though not transitive across row bands), so any comparison-based sort yields
a list whose consecutive pairs satisfy the comparator, which is all the
pipeline's guarantees rely on. -/
def normalizeFiltered (rects : List DisplayRect) (size : DisplaySize) : List DisplayRect :=
  ((rects.map (fun r => clampDisplayRect r size MIN_BOX_DISPLAY_SIZE)).filter
    (fun r => decide (size.width * 0.14 ≤ r.width ∧ size.height * 0.035 ≤ r.height ∧
      r.width ≤ size.width * 0.97 ∧ r.height ≤ size.height * 0.82))).insertionSort
    (readingOrderLE size)

/-- The merge stage of `normalizeSuggestionRects`: fold the sorted, filtered
rectangles through the first-match merge. -/
def normalizeMerged (rects : List DisplayRect) (size : DisplaySize) : List DisplayRect :=
  (normalizeFiltered rects size).foldl (fun acc r => mergeOne size acc r) []

/-- `normalizeSuggestionRects`: filter/sort, merge, expand with padding,
re-sort by reading order, and cap the list at 40 entries. -/
def normalizeSuggestionRects (rects : List DisplayRect) (size : DisplaySize) :
    List DisplayRect :=
  (((normalizeMerged rects size).map (fun r => expandRect r size)).insertionSort
    (readingOrderLE size)).take 40

/-- The pixel source backing one detection call: whether the 2D canvas context
is available, and the outcome of `getImageData` — either a thrown error or
the flat RGBA byte array (index to byte value). -/
structure PixelSurface where
  ctxAvailable : Bool
  readImageData : Except Unit (ℕ → ℕ)

/-- JavaScript `Math.round`: half-up rounding, `⌊q + 1/2⌋`. -/
def jsRound (q : ℚ) : ℤ := ⌊q + 1 / 2⌋

/-- The luma weighting `(r * 299 + g * 587 + b * 114) / 1000`. -/
def luma (r g b : ℕ) : ℚ :=
  ((r * 299 + g * 587 + b * 114 : ℕ) : ℚ) / 1000

/-- Luma of the pixel at `(x, y)` of the working image, reading the flat RGBA
array at `(y * sourceWidth + x) * 4`. -/
def pixelLuma (data : ℕ → ℕ) (sourceWidth : ℕ) (x y : ℕ) : ℚ :=
  let idx := (y * sourceWidth + x) * 4
  luma (data idx) (data (idx + 1)) (data (idx + 2))

/-- One cell of the coarse ink mask: a cell is ink when more than 8% of its
8×8 pixels are darker than the threshold. -/
def cellInk (data : ℕ → ℕ) (sourceWidth : ℕ) (threshold : ℚ) (cx cy : ℕ) : Bool :=
  let cell := 8
  let dark := ((List.range cell).map (fun py =>
    ((List.range cell).filter (fun px =>
      decide (pixelLuma data sourceWidth (cx * cell + px) (cy * cell + py) <
        threshold))).length)).sum
  let count := cell * cell
  decide ((0.08 : ℚ) < (dark : ℚ) / max 1 (count : ℚ))

/-- The ink mask, false outside the cell grid. -/
def maskAt (data : ℕ → ℕ) (sourceWidth : ℕ) (threshold : ℚ) (cols rows : ℕ)
    (cx cy : ℕ) : Bool :=
  decide (cx < cols) && decide (cy < rows) && cellInk data sourceWidth threshold cx cy

/-- The mask dilated by one cell in all 8 directions.  The source pushes each
ink cell onto its in-bounds neighbours; equivalently (as modelled here) a
cell is dilated when any cell of its 3×3 neighbourhood is ink. -/
def dilatedAt (data : ℕ → ℕ) (sourceWidth : ℕ) (threshold : ℚ) (cols rows : ℕ)
    (cx cy : ℕ) : Bool :=
  decide (cx < cols) && decide (cy < rows) &&
  ((List.range 3).any (fun i => (List.range 3).any (fun j =>
    let nx : ℤ := (cx : ℤ) + (i : ℤ) - 1
    let ny : ℤ := (cy : ℤ) + (j : ℤ) - 1
    decide (0 ≤ nx) && decide (0 ≤ ny) &&
      maskAt data sourceWidth threshold cols rows nx.toNat ny.toNat)))

/-- The mutable state of one flood fill: the shared visited set (by cell
index `cy * cols + cx`) and the component's bounding range and cell count. -/
structure BfsAcc where
  visited : ℕ → Bool
  minX : ℕ
  maxX : ℕ
  minY : ℕ
  maxY : ℕ
  cellCount : ℕ

/-- The 4-connected breadth-first flood fill: dequeue a cell, fold it into
the bounding range, and enqueue its unvisited dilated neighbours (marking
them visited on enqueue, as the source does).  The fuel `cols * rows` bounds
the number of dequeues, which cannot exceed the number of cells since every
enqueued cell is freshly marked visited. -/
def bfsRun (dilated : ℕ → ℕ → Bool) (cols rows : ℕ) :
    ℕ → List (ℕ × ℕ) → BfsAcc → BfsAcc
  | 0, _, acc => acc
  | _ + 1, [], acc => acc
  | fuel + 1, (cx, cy) :: queue, acc =>
    let acc1 : BfsAcc :=
      { acc with
        minX := min acc.minX cx
        maxX := max acc.maxX cx
        minY := min acc.minY cy
        maxY := max acc.maxY cy
        cellCount := acc.cellCount + 1 }
    let nbrs : List (ℤ × ℤ) :=
      [((cx : ℤ) - 1, (cy : ℤ)), ((cx : ℤ) + 1, (cy : ℤ)),
       ((cx : ℤ), (cy : ℤ) - 1), ((cx : ℤ), (cy : ℤ) + 1)]
    let step := nbrs.foldl
      (fun (st : (ℕ → Bool) × List (ℕ × ℕ)) nb =>
        if 0 ≤ nb.1 ∧ 0 ≤ nb.2 ∧ nb.1 < (cols : ℤ) ∧ nb.2 < (rows : ℤ) then
          let nx := nb.1.toNat
          let ny := nb.2.toNat
          if st.1 (ny * cols + nx) || !dilated nx ny then st
          else (Function.update st.1 (ny * cols + nx) true, st.2 ++ [(nx, ny)])
        else st)
      (acc1.visited, queue)
    bfsRun dilated cols rows fuel step.2 { acc1 with visited := step.1 }

/-- The component scan: walk the cell grid in row-major order (`k` encodes
`(sy, sx)` as `sy * cols + sx`), flood-fill each unvisited dilated cell,
discard components below the minimum footprint (8 cells, 3×3 cells), and
convert the rest to clamped display rectangles with one cell of padding. -/
def scanComponents (dilated : ℕ → ℕ → Bool) (cols rows sourceWidth sourceHeight : ℕ)
    (size : DisplaySize) : List DisplayRect :=
  let scaleX := size.width / (sourceWidth : ℚ)
  let scaleY := size.height / (sourceHeight : ℚ)
  let cell := 8
  ((List.range (rows * cols)).foldl
    (fun (st : (ℕ → Bool) × List DisplayRect) k =>
      let sx := k % cols
      let sy := k / cols
      let startIndex := sy * cols + sx
      if st.1 startIndex || !dilated sx sy then st
      else
        let acc := bfsRun dilated cols rows (cols * rows) [(sx, sy)]
          ⟨Function.update st.1 startIndex true, sx, sx, sy, sy, 0⟩
        let widthCells := acc.maxX - acc.minX + 1
        let heightCells := acc.maxY - acc.minY + 1
        if acc.cellCount < 8 ∨ widthCells < 3 ∨ heightCells < 3 then (acc.visited, st.2)
        else
          let pixelX := (acc.minX - 1) * cell
          let pixelY := (acc.minY - 1) * cell
          let pixelWidth := min (sourceWidth - pixelX) ((widthCells + 2) * cell)
          let pixelHeight := min (sourceHeight - pixelY) ((heightCells + 2) * cell)
          let displayRect := clampDisplayRect
            ⟨(pixelX : ℚ) * scaleX, (pixelY : ℚ) * scaleY,
             (pixelWidth : ℚ) * scaleX, (pixelHeight : ℚ) * scaleY⟩
            size MIN_BOX_DISPLAY_SIZE
          (acc.visited, st.2 ++ [displayRect]))
    ((fun _ => false), [])).2

/-- The body of `detectSuggestionRects` after a successful pixel read: sparse
mean-luma sampling (every 16th pixel), thresholding (`mean * 0.82` clamped to
`[80, 205]`), the 8×8-cell ink mask, dilation, flood fill, and the final sort
and 40-entry cap. -/
def detectCore (data : ℕ → ℕ) (sourceWidth sourceHeight : ℕ)
    (displaySize : DisplaySize) : List DisplayRect :=
  let totalPixels := sourceWidth * sourceHeight
  let graySum := ((List.range ((4 * totalPixels + 63) / 64)).map
    (fun k => luma (data (64 * k)) (data (64 * k + 1)) (data (64 * k + 2)))).sum
  let sampledPixels : ℕ := max 1 (totalPixels / 16)
  let meanGray := graySum / (sampledPixels : ℚ)
  let threshold : ℚ := max 80 (min 205 (meanGray * 0.82))
  let cols := sourceWidth / 8
  let rows := sourceHeight / 8
  let boxes := scanComponents (dilatedAt data sourceWidth threshold cols rows)
    cols rows sourceWidth sourceHeight displaySize
  (boxes.insertionSort rawOrderLE).take 40

/-- `detectSuggestionRects`: compute the working resolution (width clamped to
`[360, 1200]`, height scaled by aspect ratio with a 480 floor); return `[]`
when the 2D context is unavailable or reading the image data throws;
otherwise run the detection core. -/
def detectSuggestionRects (surface : PixelSurface) (displaySize : DisplaySize) :
    List DisplayRect :=
  let sourceWidth := (max 360 (min 1200 (jsRound displaySize.width))).toNat
  let sourceHeight := (max 480 (jsRound ((displaySize.height / max 1 displaySize.width) *
    (sourceWidth : ℚ)))).toNat
  if surface.ctxAvailable = false then []
  else
    match surface.readImageData with
    | .error _ => []
    | .ok data => detectCore data sourceWidth sourceHeight displaySize

/-- The full suggestion pipeline as the caller composes it:
`normalizeSuggestionRects(detectSuggestionRects(image, displaySize), displaySize)`. -/
def detect (surface : PixelSurface) (size : DisplaySize) : List DisplayRect :=
  normalizeSuggestionRects (detectSuggestionRects surface size) size

/-- A trivially failing pixel surface: no 2D context. -/
def noCtxSurface : PixelSurface := ⟨false, .ok (fun _ => 255)⟩

/-- A pixel surface whose `getImageData` throws. -/
def throwingSurface : PixelSurface := ⟨true, .error ()⟩

/-! ## Allocator lemmas -/

theorem parseRatioInputValue_nonneg (i : RatioInput) : 0 ≤ parseRatioInputValue i := by
  cases i <;> simp [parseRatioInputValue]

theorem parseRatioInputValue_le_100 (i : RatioInput) : parseRatioInputValue i ≤ 100 := by
  cases i with
  | numeric q =>
    simp only [parseRatioInputValue, max_le_iff]
    exact ⟨by norm_num, min_le_left _ _⟩
  | missing => norm_num [parseRatioInputValue]
  | empty => norm_num [parseRatioInputValue]
  | nonNumeric => norm_num [parseRatioInputValue]

theorem foldl_update_not_mem {α : Type} (l : List (String × α)) (m : String → α)
    (c : String) (h : c ∉ l.map Prod.fst) :
    (l.foldl (fun m p => Function.update m p.1 p.2) m) c = m c := by
  induction l generalizing m with
  | nil => rfl
  | cons p l ih =>
    simp only [List.map_cons, List.mem_cons, not_or] at h
    rw [List.foldl_cons, ih _ h.2, Function.update_noteq h.1]

theorem foldl_update_graph {α : Type} (f : String → α) (l : List String) (m : String → α)
    (c : String) :
    ((l.map (fun x => (x, f x))).foldl (fun m p => Function.update m p.1 p.2) m) c =
      if c ∈ l then f c else m c := by
  induction l generalizing m with
  | nil => simp
  | cons a l ih =>
    simp only [List.map_cons, List.foldl_cons, ih, List.mem_cons]
    by_cases hc : c ∈ l
    · simp [hc]
    · by_cases hca : c = a
      · subst hca
        simp [hc, Function.update_same]
      · simp [hc, hca, Function.update_noteq hca]

theorem buildMap_graph {α : Type} (d : α) (f : String → α) (l : List String) (c : String) :
    buildMap d (l.map (fun x => (x, f x))) c = if c ∈ l then f c else d :=
  foldl_update_graph f l _ c

theorem foldl_update_nodup_mem {α : Type} (l : List (String × α)) (m : String → α)
    (k : String) (v : α) (hnd : (l.map Prod.fst).Nodup) (hm : (k, v) ∈ l) :
    (l.foldl (fun m p => Function.update m p.1 p.2) m) k = v := by
  induction l generalizing m with
  | nil => cases hm
  | cons p l ih =>
    simp only [List.map_cons, List.nodup_cons] at hnd
    rw [List.foldl_cons]
    rcases List.mem_cons.1 hm with h | h
    · have h1 : k ∉ l.map Prod.fst := by
        have := hnd.1
        rw [← h] at this
        exact this
      rw [foldl_update_not_mem _ _ _ h1, ← h, Function.update_same]
    · exact ih _ hnd.2 h

theorem buildMap_nodup_mem {α : Type} (d : α) (l : List (String × α)) (k : String) (v : α)
    (hnd : (l.map Prod.fst).Nodup) (hm : (k, v) ∈ l) : buildMap d l k = v :=
  foldl_update_nodup_mem l _ k v hnd hm

theorem availableMap_eq_of_nodup (buckets : List CategoryBucket)
    (hnd : (buckets.map (fun b => b.category)).Nodup) (b : CategoryBucket)
    (hb : b ∈ buckets) : availableMap buckets b.category = b.candidates.length := by
  apply buildMap_nodup_mem
  · have : (buckets.map (fun b => (b.category, b.candidates.length))).map Prod.fst =
        buckets.map (fun b => b.category) := by
      rw [List.map_map]
      rfl
    rw [this]
    exact hnd
  · exact List.mem_map_of_mem _ hb

theorem weightMap_eq_of_mem (buckets : List CategoryBucket) (ratioInputs : String → RatioInput)
    (c : String) (hc : c ∈ categoryOrderOf buckets) :
    weightMap buckets ratioInputs c = parseRatioInputValue (ratioInputs c) := by
  unfold weightMap
  rw [buildMap_graph, if_pos hc]

theorem weightMap_nonneg (buckets : List CategoryBucket) (ratioInputs : String → RatioInput)
    (c : String) : 0 ≤ weightMap buckets ratioInputs c := by
  unfold weightMap
  rw [buildMap_graph]
  split
  · exact parseRatioInputValue_nonneg _
  · exact le_refl 0

theorem idealMap_eq_of_mem (buckets : List CategoryBucket) (ratioInputs : String → RatioInput)
    (n : ℕ) (c : String) (hc : c ∈ categoryOrderOf buckets) :
    idealMap buckets ratioInputs n c =
      (n * weightMap buckets ratioInputs c) / totalWeightOf buckets ratioInputs := by
  unfold idealMap
  rw [buildMap_graph, if_pos hc]

theorem idealMap_nonneg (buckets : List CategoryBucket) (ratioInputs : String → RatioInput)
    (n : ℕ) (c : String) (hw : 0 ≤ totalWeightOf buckets ratioInputs) :
    0 ≤ idealMap buckets ratioInputs n c := by
  unfold idealMap
  rw [buildMap_graph]
  split
  · exact div_nonneg (mul_nonneg (Nat.cast_nonneg n) (weightMap_nonneg _ _ _)) hw
  · exact le_refl 0

theorem initialAllocMap_le_avail (buckets : List CategoryBucket)
    (ratioInputs : String → RatioInput) (n : ℕ) (c : String) :
    initialAllocMap buckets ratioInputs n c ≤ availableMap buckets c := by
  unfold initialAllocMap
  rw [buildMap_graph]
  split
  · exact min_le_left _ _
  · exact Nat.zero_le _

theorem initialAllocMap_eq_of_mem (buckets : List CategoryBucket)
    (ratioInputs : String → RatioInput) (n : ℕ) (c : String)
    (hc : c ∈ categoryOrderOf buckets) :
    initialAllocMap buckets ratioInputs n c =
      min (availableMap buckets c) (Int.toNat ⌊idealMap buckets ratioInputs n c⌋) := by
  unfold initialAllocMap
  rw [buildMap_graph, if_pos hc]

theorem map_update_of_not_mem {α : Type} (l : List String) (f : String → α) (c : String)
    (v : α) (hc : c ∉ l) : l.map (Function.update f c v) = l.map f := by
  apply List.map_congr_left
  intro a ha
  apply Function.update_noteq
  intro h
  subst h
  exact hc ha

theorem sum_map_update_succ (l : List String) (f : String → ℕ) (c : String)
    (hnd : l.Nodup) (hc : c ∈ l) :
    (l.map (Function.update f c (f c + 1))).sum = (l.map f).sum + 1 := by
  induction l with
  | nil => cases hc
  | cons a l ih =>
    rw [List.nodup_cons] at hnd
    rcases List.mem_cons.1 hc with h | h
    · subst h
      rw [List.map_cons, List.map_cons, Function.update_same,
        map_update_of_not_mem l f c _ hnd.1, List.sum_cons, List.sum_cons]
      omega
    · have hac : a ≠ c := fun hh => hnd.1 (hh ▸ h)
      rw [List.map_cons, List.map_cons, Function.update_noteq hac, List.sum_cons,
        List.sum_cons, ih hnd.2 h]
      omega

theorem greedyStep_none_case (ideal : String → ℚ) (avail alloc : String → ℕ) (c : String) :
    greedyStep ideal avail alloc none c = if avail c ≤ alloc c then none else some c := rfl

theorem greedyStep_some_case (ideal : String → ℚ) (avail alloc : String → ℕ)
    (b c : String) :
    greedyStep ideal avail alloc (some b) c =
      if avail c ≤ alloc c then some b
      else if ideal b - (alloc b : ℚ) < ideal c - (alloc c : ℚ) then some c else some b :=
  rfl

/-- The greedy selection scan only returns categories from the scanned list
that still have spare capacity. -/
theorem greedyPick_foldl_some (ideal : String → ℚ) (avail alloc : String → ℕ) :
    ∀ (l : List String) (best : Option String) (c : String),
      l.foldl (greedyStep ideal avail alloc) best = some c →
      best = some c ∨ (c ∈ l ∧ alloc c < avail c) := by
  intro l
  induction l with
  | nil =>
    intro best c h
    exact Or.inl h
  | cons a l ih =>
    intro best c h
    rw [List.foldl_cons] at h
    rcases ih _ c h with h1 | h1
    · cases best with
      | none =>
        rw [greedyStep_none_case] at h1
        by_cases ha : avail a ≤ alloc a
        · rw [if_pos ha] at h1
          exact Or.inl h1
        · rw [if_neg ha] at h1
          injection h1 with h2
          subst h2
          exact Or.inr ⟨List.mem_cons_self a l, Nat.lt_of_not_le ha⟩
      | some b =>
        rw [greedyStep_some_case] at h1
        by_cases ha : avail a ≤ alloc a
        · rw [if_pos ha] at h1
          exact Or.inl h1
        · rw [if_neg ha] at h1
          by_cases hlt : ideal b - (alloc b : ℚ) < ideal a - (alloc a : ℚ)
          · rw [if_pos hlt] at h1
            injection h1 with h2
            subst h2
            exact Or.inr ⟨List.mem_cons_self a l, Nat.lt_of_not_le ha⟩
          · rw [if_neg hlt] at h1
            exact Or.inl h1
    · exact Or.inr ⟨List.mem_cons_of_mem a h1.1, h1.2⟩

/-- If the greedy selection scan returns nothing, the accumulator was empty and
every scanned category is full. -/
theorem greedyPick_foldl_none (ideal : String → ℚ) (avail alloc : String → ℕ) :
    ∀ (l : List String) (best : Option String),
      l.foldl (greedyStep ideal avail alloc) best = none →
      best = none ∧ ∀ c ∈ l, avail c ≤ alloc c := by
  intro l
  induction l with
  | nil =>
    intro best h
    exact ⟨h, by simp⟩
  | cons a l ih =>
    intro best h
    rw [List.foldl_cons] at h
    rcases ih _ h with ⟨h1, h2⟩
    by_cases ha : avail a ≤ alloc a
    · have hstep : greedyStep ideal avail alloc best a = best := by
        unfold greedyStep
        rw [if_pos ha]
      rw [hstep] at h1
      refine ⟨h1, ?_⟩
      intro c hc
      rcases List.mem_cons.1 hc with rfl | hc
      · exact ha
      · exact h2 c hc
    · exfalso
      cases best with
      | none =>
        rw [greedyStep_none_case, if_neg ha] at h1
        exact Option.noConfusion h1
      | some b =>
        rw [greedyStep_some_case, if_neg ha] at h1
        by_cases hlt : ideal b - (alloc b : ℚ) < ideal a - (alloc a : ℚ)
        · rw [if_pos hlt] at h1
          exact Option.noConfusion h1
        · rw [if_neg hlt] at h1
          exact Option.noConfusion h1

theorem greedyPick_some (order : List String) (ideal : String → ℚ) (avail alloc : String → ℕ)
    (c : String) (h : greedyPick order ideal avail alloc = some c) :
    c ∈ order ∧ alloc c < avail c := by
  rcases greedyPick_foldl_some ideal avail alloc order none c h with h1 | h1
  · exact Option.noConfusion h1
  · exact h1

theorem greedyPick_none (order : List String) (ideal : String → ℚ) (avail alloc : String → ℕ)
    (h : greedyPick order ideal avail alloc = none) : ∀ c ∈ order, avail c ≤ alloc c :=
  (greedyPick_foldl_none ideal avail alloc order none h).2

/-- The greedy loop never pushes a category above its availability. -/
theorem greedyLoop_le_avail (order : List String) (ideal : String → ℚ) (avail : String → ℕ) :
    ∀ (fuel : ℕ) (alloc : String → ℕ), (∀ c, alloc c ≤ avail c) →
      ∀ c, (greedyLoop order ideal avail alloc fuel).1 c ≤ avail c := by
  intro fuel
  induction fuel with
  | zero => intro alloc h c; exact h c
  | succ fuel ih =>
    intro alloc h c
    rw [greedyLoop]
    cases hp : greedyPick order ideal avail alloc with
    | none => exact h c
    | some b =>
      apply ih
      intro d
      by_cases hdb : d = b
      · subst hdb
        rw [Function.update_same]
        exact (greedyPick_some order ideal avail alloc d hp).2
      · rw [Function.update_noteq hdb]
        exact h d

/-- Each greedy iteration moves one unit from `remaining` into the allocation:
the allocated total plus leftover fuel is invariant. -/
theorem greedyLoop_sum (order : List String) (ideal : String → ℚ) (avail : String → ℕ)
    (hnd : order.Nodup) :
    ∀ (fuel : ℕ) (alloc : String → ℕ),
      (order.map (greedyLoop order ideal avail alloc fuel).1).sum +
        (greedyLoop order ideal avail alloc fuel).2 = (order.map alloc).sum + fuel := by
  intro fuel
  induction fuel with
  | zero => intro alloc; rfl
  | succ fuel ih =>
    intro alloc
    rw [greedyLoop]
    cases hp : greedyPick order ideal avail alloc with
    | none => rfl
    | some b =>
      have hb : b ∈ order := (greedyPick_some order ideal avail alloc b hp).1
      rw [ih, sum_map_update_succ order alloc b hnd hb]
      omega

/-- If the greedy loop stops with fuel left, every category is full. -/
theorem greedyLoop_stuck (order : List String) (ideal : String → ℚ) (avail : String → ℕ) :
    ∀ (fuel : ℕ) (alloc : String → ℕ),
      0 < (greedyLoop order ideal avail alloc fuel).2 →
      ∀ c ∈ order, avail c ≤ (greedyLoop order ideal avail alloc fuel).1 c := by
  intro fuel
  induction fuel with
  | zero => intro alloc h; cases h
  | succ fuel ih =>
    intro alloc h c hc
    rw [greedyLoop] at h ⊢
    cases hp : greedyPick order ideal avail alloc with
    | none =>
      simp only [hp]
      exact greedyPick_none order ideal avail alloc hp c hc
    | some b =>
      rw [hp] at h
      simp only [hp]
      exact ih _ h c hc

/-- When every category of `order` is already full, the fallback sweep changes
nothing. -/
theorem sweepLoop_noop (order : List String) (avail : String → ℕ)
    (alloc : String → ℕ) (rem : ℕ) (h : ∀ c ∈ order, avail c ≤ alloc c) :
    sweepLoop order avail (alloc, rem) = (alloc, rem) := by
  unfold sweepLoop
  induction order with
  | nil => rfl
  | cons a l ih =>
    rw [List.foldl_cons]
    have ha : avail a ≤ alloc a := h a (List.mem_cons_self a l)
    have hstep : sweepCategory rem (alloc a) (avail a) = (alloc a, rem) := by
      cases rem with
      | zero => rfl
      | succ r =>
        rw [sweepCategory, if_neg (Nat.not_lt.2 ha)]
    simp only [hstep, Function.update_eq_self]
    exact ih (fun c hc => h c (List.mem_cons_of_mem a hc))

/-- With pairwise-distinct keys the result record is the order list zipped
with the allocation. -/
theorem buildRecord_eq_of_nodup (order : List String) (alloc : String → ℕ)
    (hnd : order.Nodup) :
    buildRecord order alloc = order.map (fun c => (c, alloc c)) := by
  suffices h : ∀ (l : List String) (acc : List (String × ℕ)), l.Nodup →
      (∀ c ∈ l, ¬ ∃ v, (c, v) ∈ acc) →
      l.foldl (fun acc c => recordSet acc c (alloc c)) acc =
        acc ++ l.map (fun c => (c, alloc c)) by
    have := h order [] hnd (by simp)
    simpa using this
  intro l
  induction l with
  | nil => intro acc _ _; simp
  | cons a l ih =>
    intro acc hnd hdisj
    rw [List.nodup_cons] at hnd
    have hnotin : ¬ acc.any (fun p => p.1 = a) := by
      rw [List.any_eq_true]
      rintro ⟨p, hp, he⟩
      rw [decide_eq_true_eq] at he
      refine hdisj a (List.mem_cons_self a l) ⟨p.2, ?_⟩
      have hpp : (p.1, p.2) ∈ acc := by rwa [Prod.mk.eta]
      rwa [he] at hpp
    have hrs : recordSet acc a (alloc a) = acc ++ [(a, alloc a)] := by
      unfold recordSet
      rw [if_neg hnotin]
    have hdisj2 : ∀ c ∈ l, ¬ ∃ v, (c, v) ∈ acc ++ [(a, alloc a)] := by
      intro c hc
      rintro ⟨v, hv⟩
      rcases List.mem_append.1 hv with h1 | h1
      · exact hdisj c (List.mem_cons_of_mem a hc) ⟨v, h1⟩
      · simp only [List.mem_singleton, Prod.mk.injEq] at h1
        exact hnd.1 (h1.1 ▸ hc)
    rw [List.foldl_cons, hrs, ih (acc ++ [(a, alloc a)]) hnd.2 hdisj2]
    simp

theorem totalWeightOf_eq_sum_weightMap (b : List CategoryBucket) (i : String → RatioInput) :
    ((categoryOrderOf b).map (weightMap b i)).sum = totalWeightOf b i := by
  unfold totalWeightOf
  apply congrArg
  apply List.map_congr_left
  intro c hc
  exact weightMap_eq_of_mem b i c hc

/-- The ideal real-valued shares over the whole category order sum to the
requested count when the total weight is positive. -/
theorem sum_idealMap_eq (b : List CategoryBucket) (i : String → RatioInput) (n : ℕ)
    (hw : 0 < totalWeightOf b i) :
    ((categoryOrderOf b).map (idealMap b i n)).sum = n := by
  have h1 : (categoryOrderOf b).map (idealMap b i n) =
      (categoryOrderOf b).map (fun c => (n : ℚ) / totalWeightOf b i * weightMap b i c) := by
    apply List.map_congr_left
    intro c hc
    rw [idealMap_eq_of_mem b i n c hc]
    rw [div_mul_eq_mul_div, mul_comm]
  rw [h1, List.sum_map_mul_left, totalWeightOf_eq_sum_weightMap,
    div_mul_cancel₀ _ (ne_of_gt hw)]

theorem toNat_floor_le (q : ℚ) (hq : 0 ≤ q) : ((⌊q⌋.toNat : ℕ) : ℚ) ≤ q := by
  have h1 : ((⌊q⌋.toNat : ℤ) : ℚ) ≤ q := by
    rw [Int.toNat_of_nonneg (Int.floor_nonneg.2 hq)]
    exact Int.floor_le q
  exact_mod_cast h1

/-- The initial (floored, capped) allocation never overshoots the request. -/
theorem sum_initialAllocMap_le (b : List CategoryBucket) (i : String → RatioInput) (n : ℕ)
    (hw : 0 < totalWeightOf b i) :
    ((categoryOrderOf b).map (initialAllocMap b i n)).sum ≤ n := by
  have hcast : (((categoryOrderOf b).map (initialAllocMap b i n)).sum : ℚ) ≤
      ((categoryOrderOf b).map (idealMap b i n)).sum := by
    rw [Nat.cast_list_sum, List.map_map]
    apply List.sum_le_sum
    intro c hc
    have h2 : initialAllocMap b i n c ≤ ⌊idealMap b i n c⌋.toNat := by
      rw [initialAllocMap_eq_of_mem b i n c hc]
      exact min_le_right _ _
    calc ((initialAllocMap b i n c : ℕ) : ℚ) ≤ ((⌊idealMap b i n c⌋.toNat : ℕ) : ℚ) := by
          exact_mod_cast h2
      _ ≤ idealMap b i n c :=
          toNat_floor_le _ (idealMap_nonneg b i n c (le_of_lt hw))
  have h3 : (((categoryOrderOf b).map (initialAllocMap b i n)).sum : ℚ) ≤ (n : ℚ) := by
    rw [← sum_idealMap_eq b i n hw]
    exact hcast
  exact_mod_cast h3

/-- With distinct categories, summing the availability over the category order
is summing the bucket sizes. -/
theorem sum_availableMap_eq (b : List CategoryBucket)
    (hnd : (categoryOrderOf b).Nodup) :
    ((categoryOrderOf b).map (availableMap b)).sum =
      (b.map (fun x => x.candidates.length)).sum := by
  unfold categoryOrderOf
  rw [List.map_map]
  apply congrArg
  apply List.map_congr_left
  intro x hx
  exact availableMap_eq_of_nodup b hnd x hx

/-- Master invariants of the allocation state: the final allocation respects
availability, allocated-plus-remaining equals the request, and a positive
leftover means every category of the order is filled to its availability. -/
theorem allocResultState_spec (b : List CategoryBucket) (i : String → RatioInput) (n : ℕ)
    (hnd : (categoryOrderOf b).Nodup) (hw : 0 < totalWeightOf b i) :
    (∀ c, (allocResultState b i n).1 c ≤ availableMap b c) ∧
    ((categoryOrderOf b).map (allocResultState b i n).1).sum +
      (allocResultState b i n).2 = n ∧
    (0 < (allocResultState b i n).2 →
      ∀ c ∈ categoryOrderOf b, (allocResultState b i n).1 c = availableMap b c) := by
  have hcap0 : ∀ c, initialAllocMap b i n c ≤ availableMap b c :=
    initialAllocMap_le_avail b i n
  set order := categoryOrderOf b with horder
  set avail := availableMap b with havail
  set alloc0 := initialAllocMap b i n with halloc0
  set rem0 := n - (order.map alloc0).sum with hrem0
  set g := greedyLoop order (idealMap b i n) avail alloc0 rem0 with hg
  have hstate : allocResultState b i n = if 0 < g.2 then sweepLoop order avail g else g := rfl
  have hgcap : ∀ c, g.1 c ≤ avail c :=
    greedyLoop_le_avail order (idealMap b i n) avail rem0 alloc0 hcap0
  have hgsum : (order.map g.1).sum + g.2 = (order.map alloc0).sum + rem0 :=
    greedyLoop_sum order (idealMap b i n) avail hnd rem0 alloc0
  have hle : (order.map alloc0).sum ≤ n := sum_initialAllocMap_le b i n hw
  have hsum : (order.map g.1).sum + g.2 = n := by
    rw [hgsum, hrem0]
    omega
  by_cases hpos : 0 < g.2
  · have hfull : ∀ c ∈ order, g.1 c = avail c := by
      intro c hc
      exact le_antisymm (hgcap c)
        (greedyLoop_stuck order (idealMap b i n) avail rem0 alloc0 hpos c hc)
    have hnoop : sweepLoop order avail g = g := by
      have := sweepLoop_noop order avail g.1 g.2 (fun c hc => le_of_eq (hfull c hc).symm)
      rwa [Prod.mk.eta] at this
    rw [hstate, if_pos hpos, hnoop]
    exact ⟨hgcap, hsum, fun _ => hfull⟩
  · rw [hstate, if_neg hpos]
    exact ⟨hgcap, hsum, fun h => absurd h hpos⟩

/-- Unfolding the success branch of the allocator. -/
theorem allocate_eq_ok_branch (b : List CategoryBucket) (n : ℕ) (i : String → RatioInput)
    (h1 : ¬ totalWeightOf b i ≤ 0) (h2 : ¬ 0 < (allocResultState b i n).2) :
    allocateQuestionCountsByCategory b n i =
      .ok (buildRecord (categoryOrderOf b) (allocResultState b i n).1) := by
  simp only [allocateQuestionCountsByCategory, if_neg h1, if_neg h2]

/-- Unfolding the weight-error branch of the allocator. -/
theorem allocate_eq_error_weight (b : List CategoryBucket) (n : ℕ) (i : String → RatioInput)
    (h1 : totalWeightOf b i ≤ 0) :
    allocateQuestionCountsByCategory b n i = .error weightErrorMsg := by
  simp only [allocateQuestionCountsByCategory, if_pos h1]

/-- Unfolding the shortfall-error branch of the allocator. -/
theorem allocate_eq_error_shortfall (b : List CategoryBucket) (n : ℕ)
    (i : String → RatioInput) (h1 : ¬ totalWeightOf b i ≤ 0)
    (h2 : 0 < (allocResultState b i n).2) :
    allocateQuestionCountsByCategory b n i = .error shortfallErrorMsg := by
  simp only [allocateQuestionCountsByCategory, if_neg h1, if_pos h2]

/-- Success lemma: with distinct categories, positive total weight and enough
availability overall, the allocator succeeds, the result is the category order
zipped with the final allocation, its counts sum to the request, and each
count respects availability. -/
theorem allocate_ok_of_enough (b : List CategoryBucket) (n : ℕ) (i : String → RatioInput)
    (hnd : (categoryOrderOf b).Nodup) (hw : 0 < totalWeightOf b i)
    (hav : n ≤ (b.map (fun x => x.candidates.length)).sum) :
    allocateQuestionCountsByCategory b n i =
      .ok ((categoryOrderOf b).map (fun c => (c, (allocResultState b i n).1 c))) ∧
    ((categoryOrderOf b).map (allocResultState b i n).1).sum = n ∧
    (∀ c, (allocResultState b i n).1 c ≤ availableMap b c) := by
  obtain ⟨hcap, hsum, hfull⟩ := allocResultState_spec b i n hnd hw
  have hzero : (allocResultState b i n).2 = 0 := by
    by_contra hne
    have hpos : 0 < (allocResultState b i n).2 := Nat.pos_of_ne_zero hne
    have heq : ((categoryOrderOf b).map (allocResultState b i n).1).sum =
        ((categoryOrderOf b).map (availableMap b)).sum := by
      apply congrArg
      apply List.map_congr_left
      intro c hc
      exact hfull hpos c hc
    rw [heq, sum_availableMap_eq b hnd] at hsum
    omega
  have h2 : ¬ 0 < (allocResultState b i n).2 := by omega
  refine ⟨?_, by omega, hcap⟩
  rw [allocate_eq_ok_branch b n i (not_le.2 hw) h2,
    buildRecord_eq_of_nodup _ _ hnd]

/-- Failure lemma: with distinct categories and positive total weight, the
allocator reports the shortfall error exactly when the total availability is
short of the request. -/
theorem allocate_error_iff_shortfall (b : List CategoryBucket) (n : ℕ)
    (i : String → RatioInput) (hnd : (categoryOrderOf b).Nodup)
    (hw : 0 < totalWeightOf b i) :
    allocateQuestionCountsByCategory b n i = .error shortfallErrorMsg ↔
      (b.map (fun x => x.candidates.length)).sum < n := by
  obtain ⟨hcap, hsum, hfull⟩ := allocResultState_spec b i n hnd hw
  constructor
  · intro herr
    by_contra hge
    have hav : n ≤ (b.map (fun x => x.candidates.length)).sum := by omega
    obtain ⟨hok, -, -⟩ := allocate_ok_of_enough b n i hnd hw hav
    rw [hok] at herr
    exact Except.noConfusion herr
  · intro hlt
    have hcaple : ((categoryOrderOf b).map (allocResultState b i n).1).sum ≤
        ((categoryOrderOf b).map (availableMap b)).sum :=
      List.sum_le_sum (fun c _ => hcap c)
    rw [sum_availableMap_eq b hnd] at hcaple
    have hpos : 0 < (allocResultState b i n).2 := by omega
    exact allocate_eq_error_shortfall b n i (not_le.2 hw) hpos

/-! ## Allocator claims -/

/-- **C1, counterexample.**  With two buckets sharing the category label `A`
(5 candidates each), weight `50` and requested total `4`, the total weight is
positive and the overall availability (10 candidates, and 5 for the single
category `A`) covers the request, yet the allocator succeeds with counts
summing to `2`, not `4`: the claim fails for bucket lists with repeated
category labels. -/
theorem allocate_dup_sum_counterexample :
    allocateQuestionCountsByCategory dupPair_buckets 4 dupA_inputs = .ok [("A", 2)] ∧
    0 < totalWeightOf dupPair_buckets dupA_inputs ∧
    4 ≤ (dupPair_buckets.map (fun x => x.candidates.length)).sum ∧
    (([("A", 2)] : List (String × ℕ)).map Prod.snd).sum ≠ 4 := by
  refine ⟨by with_unfolding_all decide, by with_unfolding_all decide, by decide, by decide⟩

/-- **C1, amended.**  For every bucket list with pairwise-distinct category
labels, requested total and weight map such that the total weight is positive
and the overall number of candidates is at least the requested total, the
allocator succeeds and returns counts whose sum is exactly the requested
total, each count at most its category's availability. -/
theorem allocate_exact_of_distinct (b : List CategoryBucket) (n : ℕ)
    (i : String → RatioInput) (hnd : (categoryOrderOf b).Nodup)
    (hw : 0 < totalWeightOf b i)
    (hav : n ≤ (b.map (fun x => x.candidates.length)).sum) :
    ∃ result, allocateQuestionCountsByCategory b n i = .ok result ∧
      (result.map Prod.snd).sum = n ∧
      ∀ x ∈ b, ∀ m : ℕ, (x.category, m) ∈ result → m ≤ x.candidates.length := by
  obtain ⟨hok, hsum, hcap⟩ := allocate_ok_of_enough b n i hnd hw hav
  refine ⟨_, hok, ?_, ?_⟩
  · rw [List.map_map]
    exact hsum
  · intro x hx m hm
    rcases List.mem_map.1 hm with ⟨c, hc, hceq⟩
    have h1 : c = x.category := congrArg Prod.fst hceq
    have h2 : (allocResultState b i n).1 c = m := congrArg Prod.snd hceq
    rw [← availableMap_eq_of_nodup b hnd x hx, ← h1, ← h2]
    exact hcap c

/-- **C1, witness.** -/
theorem allocate_exact_of_distinct_witness :
    ∃ result, allocateQuestionCountsByCategory scenarioB_buckets 10 scenarioB_inputs =
        .ok result ∧
      (result.map Prod.snd).sum = 10 ∧
      ∀ x ∈ scenarioB_buckets, ∀ m : ℕ,
        (x.category, m) ∈ result → m ≤ x.candidates.length :=
  allocate_exact_of_distinct scenarioB_buckets 10 scenarioB_inputs (by decide)
    (by with_unfolding_all decide) (by decide)

/-- **C2, counterexample.**  With the duplicated-category buckets
`[A(3), A(3), B(1)]`, weights `{A: 0, B: 100}` and requested total `5`, the
total weight is positive and the candidates across the buckets number
`7 ≥ 5`, yet the allocator fails with the availability-shortfall error: with
repeated category labels, failure is not equivalent to a true availability
shortfall. -/
theorem allocate_shortfall_counterexample :
    allocateQuestionCountsByCategory dupShort_buckets 5 dupShort_inputs =
      .error shortfallErrorMsg ∧
    0 < totalWeightOf dupShort_buckets dupShort_inputs ∧
    5 ≤ (dupShort_buckets.map (fun x => x.candidates.length)).sum := by
  refine ⟨allocate_eq_error_shortfall dupShort_buckets 5 dupShort_inputs
    (by with_unfolding_all decide) (by with_unfolding_all decide),
    by with_unfolding_all decide, by decide⟩

/-- **C2, amended.**  For every input with positive total weight and
pairwise-distinct category labels, the allocator fails with the
availability-shortfall error exactly when the total number of candidates is
less than the requested total; when the candidates suffice, it reaches the
requested total exactly (and returns no partial result). -/
theorem allocate_shortfall_iff_distinct (b : List CategoryBucket) (n : ℕ)
    (i : String → RatioInput) (hnd : (categoryOrderOf b).Nodup)
    (hw : 0 < totalWeightOf b i) :
    (allocateQuestionCountsByCategory b n i = .error shortfallErrorMsg ↔
      (b.map (fun x => x.candidates.length)).sum < n) ∧
    (n ≤ (b.map (fun x => x.candidates.length)).sum →
      ∃ result, allocateQuestionCountsByCategory b n i = .ok result ∧
        (result.map Prod.snd).sum = n) := by
  refine ⟨allocate_error_iff_shortfall b n i hnd hw, ?_⟩
  intro hav
  obtain ⟨hok, hsum, -⟩ := allocate_ok_of_enough b n i hnd hw hav
  refine ⟨_, hok, ?_⟩
  rw [List.map_map]
  exact hsum

/-- **C2, witness.** -/
theorem allocate_shortfall_iff_distinct_witness :
    (allocateQuestionCountsByCategory twoA_buckets 5 fullA_inputs =
        .error shortfallErrorMsg ↔
      (twoA_buckets.map (fun x => x.candidates.length)).sum < 5) ∧
    (5 ≤ (twoA_buckets.map (fun x => x.candidates.length)).sum →
      ∃ result, allocateQuestionCountsByCategory twoA_buckets 5 fullA_inputs = .ok result ∧
        (result.map Prod.snd).sum = 5) :=
  allocate_shortfall_iff_distinct twoA_buckets 5 fullA_inputs (by decide)
    (by with_unfolding_all decide)

/-- **C6.**  Scenario B: buckets `{A: 3 avail, B: 10 avail}`, weights
`{A: 60, B: 40}`, requested total 10: `A` is capped at its availability 3 and
the remaining 7 all go to `B`, so the result is exactly `{A: 3, B: 7}`. -/
theorem allocate_scenarioB :
    allocateQuestionCountsByCategory scenarioB_buckets 10 scenarioB_inputs =
      .ok [("A", 3), ("B", 7)] := by
  with_unfolding_all decide

/-- **C7, counterexample.**  The shortfall failure carries no shortfall
amount: for the single bucket `A` with 2 candidates, requesting 5 (shortfall
3) and requesting 100 (shortfall 98) produce the exact same error value, a
fixed message string, so the caller cannot read the shortfall from it. -/
theorem allocate_error_amount_counterexample :
    allocateQuestionCountsByCategory twoA_buckets 5 fullA_inputs =
      .error shortfallErrorMsg ∧
    allocateQuestionCountsByCategory twoA_buckets 100 fullA_inputs =
      .error shortfallErrorMsg := by
  refine ⟨allocate_eq_error_shortfall twoA_buckets 5 fullA_inputs
      (by with_unfolding_all decide) (by with_unfolding_all decide),
    allocate_eq_error_shortfall twoA_buckets 100 fullA_inputs
      (by with_unfolding_all decide) (by with_unfolding_all decide)⟩

/-- **C7, amended.**  When the total weight is positive, any failure of the
allocator is the fixed availability-shortfall message, which is a constant
string independent of the inputs and so does not report the shortfall
amount. -/
theorem allocate_error_constant_message (b : List CategoryBucket) (n : ℕ)
    (i : String → RatioInput) (hw : 0 < totalWeightOf b i) (e : String)
    (he : allocateQuestionCountsByCategory b n i = .error e) :
    e = shortfallErrorMsg := by
  rw [allocateQuestionCountsByCategory, if_neg (not_le.2 hw)] at he
  by_cases h2 : 0 < (allocResultState b i n).2
  · rw [if_pos h2] at he
    exact (Except.error.injEq .. ▸ he).symm
  · rw [if_neg h2] at he
    exact Except.noConfusion he

/-- **C7, witness.** -/
theorem allocate_error_constant_message_witness : shortfallErrorMsg = shortfallErrorMsg :=
  allocate_error_constant_message twoA_buckets 5 fullA_inputs
    (by with_unfolding_all decide) shortfallErrorMsg
    (allocate_eq_error_shortfall twoA_buckets 5 fullA_inputs
      (by with_unfolding_all decide) (by with_unfolding_all decide))

/-- **C9.**  Parsed ratio weights are clamped to `[0, 100]`: missing, empty
and non-numeric inputs and all negative numbers parse to `0`, numbers above
`100` parse to `100`, every parse lies in `[0, 100]`, and consequently the
total-weight failure occurs only when every bucket's parsed weight is exactly
`0`. -/
theorem parseRatio_clamped_weight_error_all_zero :
    parseRatioInputValue .missing = 0 ∧ parseRatioInputValue .empty = 0 ∧
    parseRatioInputValue .nonNumeric = 0 ∧
    (∀ q : ℚ, q < 0 → parseRatioInputValue (.numeric q) = 0) ∧
    (∀ q : ℚ, 100 < q → parseRatioInputValue (.numeric q) = 100) ∧
    (∀ r : RatioInput, 0 ≤ parseRatioInputValue r ∧ parseRatioInputValue r ≤ 100) ∧
    (∀ (b : List CategoryBucket) (n : ℕ) (i : String → RatioInput),
      allocateQuestionCountsByCategory b n i = .error weightErrorMsg →
      ∀ x ∈ b, parseRatioInputValue (i x.category) = 0) := by
  refine ⟨rfl, rfl, rfl, ?_, ?_, ?_, ?_⟩
  · intro q hq
    simp only [parseRatioInputValue]
    rw [min_eq_right (le_of_lt (lt_trans hq (by norm_num))), max_eq_left (le_of_lt hq)]
  · intro q hq
    simp only [parseRatioInputValue]
    rw [min_eq_left (le_of_lt hq), max_eq_right (by norm_num)]
  · intro r
    exact ⟨parseRatioInputValue_nonneg r, parseRatioInputValue_le_100 r⟩
  · intro b n i he x hx
    have hw : totalWeightOf b i ≤ 0 := by
      by_contra hpos
      rw [allocateQuestionCountsByCategory, if_neg hpos] at he
      by_cases h2 : 0 < (allocResultState b i n).2
      · rw [if_pos h2] at he
        have : shortfallErrorMsg = weightErrorMsg := Except.error.injEq .. ▸ he
        exact absurd this (by decide)
      · rw [if_neg h2] at he
        exact Except.noConfusion he
    have hmem : parseRatioInputValue (i x.category) ∈
        (categoryOrderOf b).map (fun c => parseRatioInputValue (i c)) :=
      List.mem_map_of_mem _ (List.mem_map_of_mem _ hx)
    have hnn : ∀ y ∈ (categoryOrderOf b).map (fun c => parseRatioInputValue (i c)), 0 ≤ y := by
      intro y hy
      rcases List.mem_map.1 hy with ⟨c, -, rfl⟩
      exact parseRatioInputValue_nonneg _
    have hle : parseRatioInputValue (i x.category) ≤ totalWeightOf b i :=
      List.single_le_sum hnn _ hmem
    exact le_antisymm (le_trans hle hw) (parseRatioInputValue_nonneg _)

/-- **C9, witness.** -/
theorem parseRatio_clamped_witness :
    parseRatioInputValue (.numeric (-5)) = 0 ∧
    parseRatioInputValue (.numeric 230) = 100 ∧
    parseRatioInputValue (negA_inputs "A") = 0 :=
  ⟨parseRatio_clamped_weight_error_all_zero.2.2.2.1 (-5) (by norm_num),
   parseRatio_clamped_weight_error_all_zero.2.2.2.2.1 230 (by norm_num),
   parseRatio_clamped_weight_error_all_zero.2.2.2.2.2.2 oneA_buckets 1 negA_inputs
     (allocate_eq_error_weight oneA_buckets 1 negA_inputs (by with_unfolding_all decide))
     ⟨"A", ["a1"]⟩ (by decide)⟩

/-- **C10.**  For pairwise-distinct categories, a successful allocation
returns exactly one entry per input bucket, in the buckets' original order
(so categories allocated nothing still appear, with count 0), and every count
is a non-negative integer. -/
theorem allocate_result_shape (b : List CategoryBucket) (n : ℕ)
    (i : String → RatioInput) (res : List (String × ℕ))
    (hnd : (categoryOrderOf b).Nodup)
    (hok : allocateQuestionCountsByCategory b n i = .ok res) :
    res.map Prod.fst = b.map (fun x => x.category) ∧ ∀ p ∈ res, 0 ≤ p.2 := by
  by_cases h1 : totalWeightOf b i ≤ 0
  · rw [allocateQuestionCountsByCategory, if_pos h1] at hok
    exact Except.noConfusion hok
  · rw [allocateQuestionCountsByCategory, if_neg h1] at hok
    by_cases h2 : 0 < (allocResultState b i n).2
    · rw [if_pos h2] at hok
      exact Except.noConfusion hok
    · rw [if_neg h2] at hok
      have hres : res = buildRecord (categoryOrderOf b) (allocResultState b i n).1 :=
        (Except.ok.injEq .. ▸ hok).symm
      subst hres
      rw [buildRecord_eq_of_nodup _ _ hnd, List.map_map]
      refine ⟨?_, fun p _ => Nat.zero_le _⟩
      have h3 : (Prod.fst ∘ fun c => (c, (allocResultState b i n).1 c)) =
          fun c : String => c := rfl
      rw [h3, List.map_id']
      rfl

/-- **C10, witness.** -/
theorem allocate_result_shape_witness :
    (([("A", 3), ("B", 7)] : List (String × ℕ)).map Prod.fst =
      scenarioB_buckets.map (fun x => x.category)) ∧
    ∀ p ∈ ([("A", 3), ("B", 7)] : List (String × ℕ)), 0 ≤ p.2 :=
  allocate_result_shape scenarioB_buckets 10 scenarioB_inputs [("A", 3), ("B", 7)]
    (by decide) (by with_unfolding_all decide)

/-! ## Detector lemmas -/

/-- For a frame of width and height at least 1, every clamped rectangle lies
inside the frame and has both sides at least 1. -/
theorem clampDisplayRect_bounds (rect : DisplayRect) (size : DisplaySize) (minSize : ℚ)
    (hms : 1 ≤ minSize) (hw : 1 ≤ size.width) (hh : 1 ≤ size.height) :
    0 ≤ (clampDisplayRect rect size minSize).x ∧
    0 ≤ (clampDisplayRect rect size minSize).y ∧
    (clampDisplayRect rect size minSize).x + (clampDisplayRect rect size minSize).width
      ≤ size.width ∧
    (clampDisplayRect rect size minSize).y + (clampDisplayRect rect size minSize).height
      ≤ size.height ∧
    1 ≤ (clampDisplayRect rect size minSize).width ∧
    1 ≤ (clampDisplayRect rect size minSize).height := by
  have hmaxw : max 1 size.width = size.width := max_eq_right hw
  have hmaxh : max 1 size.height = size.height := max_eq_right hh
  simp only [clampDisplayRect, hmaxw, hmaxh]
  have hminw : 1 ≤ min minSize size.width := le_min hms hw
  have hminh : 1 ≤ min minSize size.height := le_min hms hh
  have hwle : min size.width (max (min minSize size.width) rect.width) ≤ size.width :=
    min_le_left _ _
  have hwge : 1 ≤ min size.width (max (min minSize size.width) rect.width) :=
    le_min hw (le_trans hminw (le_max_left _ _))
  have hhle : min size.height (max (min minSize size.height) rect.height) ≤ size.height :=
    min_le_left _ _
  have hhge : 1 ≤ min size.height (max (min minSize size.height) rect.height) :=
    le_min hh (le_trans hminh (le_max_left _ _))
  refine ⟨?_, ?_, ?_, ?_, hwge, hhge⟩
  · exact le_min (by linarith) (le_max_left 0 _)
  · exact le_min (by linarith) (le_max_left 0 _)
  · have h1 := min_le_left
      (size.width - min size.width (max (min minSize size.width) rect.width))
      (max 0 rect.x)
    linarith
  · have h1 := min_le_left
      (size.height - min size.height (max (min minSize size.height) rect.height))
      (max 0 rect.y)
    linarith

/-- For a frame narrower or shorter than one pixel, the size filter rejects
every clamped rectangle (their clamped sides are exactly 1, above the
relative maxima), so normalization returns the empty list. -/
theorem normalize_eq_nil_of_small (rects : List DisplayRect) (size : DisplaySize)
    (h : size.width < 1 ∨ size.height < 1) :
    normalizeSuggestionRects rects size = [] := by
  have hfil : normalizeFiltered rects size = [] := by
    unfold normalizeFiltered
    have hnil : (rects.map (fun r => clampDisplayRect r size MIN_BOX_DISPLAY_SIZE)).filter
        (fun r => decide (size.width * 0.14 ≤ r.width ∧ size.height * 0.035 ≤ r.height ∧
          r.width ≤ size.width * 0.97 ∧ r.height ≤ size.height * 0.82)) = [] := by
      rw [List.filter_eq_nil_iff]
      intro r hr
      rcases List.mem_map.1 hr with ⟨r₀, -, rfl⟩
      rw [decide_eq_true_eq]
      rintro ⟨-, -, hwle, hhle⟩
      rcases h with hlt | hlt
      · have hcw : (clampDisplayRect r₀ size MIN_BOX_DISPLAY_SIZE).width = 1 := by
          simp only [clampDisplayRect, MIN_BOX_DISPLAY_SIZE]
          rw [max_eq_left (le_of_lt hlt), min_eq_right (by norm_num : (1 : ℚ) ≤ 20),
            min_eq_left (le_max_left 1 r₀.width)]
        rw [hcw] at hwle
        nlinarith
      · have hch : (clampDisplayRect r₀ size MIN_BOX_DISPLAY_SIZE).height = 1 := by
          simp only [clampDisplayRect, MIN_BOX_DISPLAY_SIZE]
          rw [max_eq_left (le_of_lt hlt), min_eq_right (by norm_num : (1 : ℚ) ≤ 20),
            min_eq_left (le_max_left 1 r₀.height)]
        rw [hch] at hhle
        nlinarith
    rw [hnil]
    rfl
  unfold normalizeSuggestionRects normalizeMerged
  rw [hfil]
  rfl

/-- Every rectangle of the normalized output is the padded expansion (hence a
clamped rectangle) of some merged rectangle. -/
theorem mem_normalize_expand (rects : List DisplayRect) (size : DisplaySize)
    (r : DisplayRect) (hr : r ∈ normalizeSuggestionRects rects size) :
    ∃ r₀, r = expandRect r₀ size := by
  unfold normalizeSuggestionRects at hr
  have h1 := List.take_subset 40 _ hr
  have h2 := (List.perm_insertionSort (readingOrderLE size) _).mem_iff.1 h1
  rcases List.mem_map.1 h2 with ⟨r₀, -, heq⟩
  exact ⟨r₀, heq.symm⟩

/-- Inserting into a chain of a total (not necessarily transitive) relation
preserves the consecutive-pair property. -/
theorem chain'_orderedInsert {α : Type} (r : α → α → Prop) [DecidableRel r]
    (htot : ∀ a b, r a b ∨ r b a) (a : α) (l : List α) (hc : l.Chain' r) :
    (l.orderedInsert r a).Chain' r := by
  induction l with
  | nil => simp
  | cons b l ih =>
    rw [List.orderedInsert]
    by_cases h : r a b
    · rw [if_pos h]
      exact List.Chain'.cons h hc
    · rw [if_neg h]
      have hba : r b a := (htot a b).resolve_left h
      rw [List.chain'_cons'] at hc ⊢
      refine ⟨?_, ih hc.2⟩
      intro y hy
      cases l with
      | nil =>
        simp only [List.orderedInsert, List.head?_cons, Option.mem_def,
          Option.some.injEq] at hy
        rw [← hy]
        exact hba
      | cons c l2 =>
        rw [List.orderedInsert] at hy
        by_cases hac : r a c
        · rw [if_pos hac] at hy
          simp only [List.head?_cons, Option.mem_def, Option.some.injEq] at hy
          rw [← hy]
          exact hba
        · rw [if_neg hac] at hy
          simp only [List.head?_cons, Option.mem_def, Option.some.injEq] at hy
          rw [← hy]
          exact hc.1 c rfl

/-- Insertion sort by a total relation yields a list whose consecutive pairs
satisfy the relation (no transitivity needed). -/
theorem chain'_insertionSort {α : Type} (r : α → α → Prop) [DecidableRel r]
    (htot : ∀ a b, r a b ∨ r b a) (l : List α) :
    (l.insertionSort r).Chain' r := by
  induction l with
  | nil => simp
  | cons a l ih =>
    show (List.orderedInsert r a (l.insertionSort r)).Chain' r
    exact chain'_orderedInsert r htot a _ ih

/-- The reading-order comparator is total. -/
theorem readingOrderLE_total (size : DisplaySize) (a b : DisplayRect) :
    readingOrderLE size a b ∨ readingOrderLE size b a := by
  unfold readingOrderLE
  by_cases h : |a.y - b.y| < size.height * 0.015
  · have h2 : |b.y - a.y| < size.height * 0.015 := by rwa [abs_sub_comm]
    rw [if_pos h, if_pos h2]
    exact le_total a.x b.x
  · have h2 : ¬ |b.y - a.y| < size.height * 0.015 := by rwa [abs_sub_comm]
    rw [if_neg h, if_neg h2]
    exact le_total a.y b.y

/-! ## Detector claims -/

/-- **C4.**  For every pixel surface and every frame with positive width and
height, every rectangle produced by the detection pipeline lies within the
frame bounds and has both sides at least 1. -/
theorem detect_bounds (surface : PixelSurface) (size : DisplaySize)
    (hw : 0 < size.width) (hh : 0 < size.height) :
    ∀ r ∈ detect surface size,
      0 ≤ r.x ∧ 0 ≤ r.y ∧ r.x + r.width ≤ size.width ∧
      r.y + r.height ≤ size.height ∧ 1 ≤ r.width ∧ 1 ≤ r.height := by
  intro r hr
  by_cases hsmall : size.width < 1 ∨ size.height < 1
  · rw [detect, normalize_eq_nil_of_small _ _ hsmall] at hr
    cases hr
  · push_neg at hsmall
    obtain ⟨r₀, rfl⟩ := mem_normalize_expand _ _ r hr
    unfold expandRect
    exact clampDisplayRect_bounds _ size MIN_BOX_DISPLAY_SIZE
      (by unfold MIN_BOX_DISPLAY_SIZE; norm_num) hsmall.1 hsmall.2

/-- **C4, witness.** -/
theorem detect_bounds_witness :
    (0 : ℚ) < 100 ∧
    ∀ r ∈ detect noCtxSurface ⟨100, 100⟩,
      0 ≤ r.x ∧ 0 ≤ r.y ∧ r.x + r.width ≤ (100 : ℚ) ∧
      r.y + r.height ≤ (100 : ℚ) ∧ 1 ≤ r.width ∧ 1 ≤ r.height :=
  ⟨by norm_num, detect_bounds noCtxSurface ⟨100, 100⟩ (by norm_num) (by norm_num)⟩

/-- **C5.**  For every pixel surface and frame size, the detection pipeline's
output is in reading order: each consecutive pair is either in the same row
band (vertical distance below 1.5% of the frame height) with non-decreasing
`x`, or strictly increasing in `y`. -/
theorem detect_reading_order (surface : PixelSurface) (size : DisplaySize) :
    List.Chain' (fun a b => (|a.y - b.y| < size.height * 0.015 ∧ a.x ≤ b.x) ∨ a.y < b.y)
      (detect surface size) := by
  by_cases hsmall : size.height < 1
  · rw [detect, normalize_eq_nil_of_small _ _ (Or.inr hsmall)]
    simp
  · have h0 : (0 : ℚ) < size.height := lt_of_lt_of_le (by norm_num) (not_lt.1 hsmall)
    have hchain : (((normalizeMerged (detectSuggestionRects surface size) size).map
        (fun r => expandRect r size)).insertionSort (readingOrderLE size)).Chain'
        (readingOrderLE size) :=
      chain'_insertionSort _ (readingOrderLE_total size) _
    have htake := List.Chain'.take hchain 40
    rw [detect, normalizeSuggestionRects]
    refine List.Chain'.imp ?_ htake
    intro a b hab
    unfold readingOrderLE at hab
    by_cases hband : |a.y - b.y| < size.height * 0.015
    · rw [if_pos hband] at hab
      exact Or.inl ⟨hband, hab⟩
    · rw [if_neg hband] at hab
      right
      rcases lt_or_eq_of_le hab with h | h
      · exact h
      · exfalso
        apply hband
        rw [h, sub_self, abs_zero]
        exact mul_pos h0 (by norm_num)

/-- **C8.**  Any pixel-read failure — the 2D context being unavailable, or
`getImageData` throwing — makes the detection pipeline return the empty list
(in this embedding the pipeline is a total function, so no exception can
propagate). -/
theorem detect_soft_fail (surface : PixelSurface) (size : DisplaySize)
    (h : surface.ctxAvailable = false ∨ ∃ e, surface.readImageData = .error e) :
    detect surface size = [] := by
  have hraw : detectSuggestionRects surface size = [] := by
    unfold detectSuggestionRects
    by_cases hctx : surface.ctxAvailable = false
    · rw [hctx]
      simp
    · rcases h with h | ⟨e, he⟩
      · exact absurd h hctx
      · rw [he]
        simp [hctx]
  rw [detect, hraw]
  rfl

/-- **C8, witness.** -/
theorem detect_soft_fail_witness :
    detect noCtxSurface ⟨1000, 1000⟩ = [] ∧ detect throwingSurface ⟨1000, 1000⟩ = [] :=
  ⟨detect_soft_fail noCtxSurface ⟨1000, 1000⟩ (Or.inl rfl),
   detect_soft_fail throwingSurface ⟨1000, 1000⟩ (Or.inr ⟨(), rfl⟩)⟩

/-- **C3, counterexample.**  Two rectangles that survive the merge pass with
an IoU just below the threshold (648/2161 ≈ 0.2998) are pushed to an IoU of
1521/4751 ≈ 0.3201 ≥ 0.32 by the padding expansion, so the final normalized
output contains a pair with IoU of 0.32 or more.  (The input rectangles are
exactly the raw boxes the blob detector produces for two interlocking
L-shaped components on a 1000×1000 frame.) -/
theorem normalize_iou_counterexample :
    normalizeSuggestionRects [⟨24, 24, 424, 424⟩, ⟨160, 160, 424, 424⟩] ⟨1000, 1000⟩ =
      [⟨12, 16, 448, 448⟩, ⟨148, 152, 448, 448⟩] ∧
    (0.32 : ℚ) ≤ getIoU ⟨12, 16, 448, 448⟩ ⟨148, 152, 448, 448⟩ ∧
    getIoU ⟨24, 24, 424, 424⟩ ⟨160, 160, 424, 424⟩ ≤ (0.32 : ℚ) := by
  refine ⟨by with_unfolding_all decide, by with_unfolding_all decide,
    by with_unfolding_all decide⟩

/-- **C3, amended.**  What the merge pass guarantees is local and
pre-expansion: a rectangle is appended to the merged list (rather than merged
into it) only when its IoU with every rectangle then in the list is at most
0.32 and it is not nearly contained in any of them.  The global
pairwise-IoU-below-threshold property of the final output is false: union
growth and the padding expansion can push a surviving pair to IoU ≥ 0.32. -/
theorem mergeOne_append_inv (size : DisplaySize) (acc : List DisplayRect)
    (rect : DisplayRect) (h : mergeOne size acc rect = acc ++ [rect]) :
    ∀ base ∈ acc, getIoU base rect ≤ 0.32 ∧ ¬ nearlyContains base rect := by
  induction acc with
  | nil =>
    intro base hb
    cases hb
  | cons b l ih =>
    intro base hb
    rw [mergeOne] at h
    by_cases hc : (0.32 : ℚ) < getIoU b rect ∨ nearlyContains b rect
    · rw [if_pos hc] at h
      exfalso
      have hlen := congrArg List.length h
      simp at hlen
    · rw [if_neg hc] at h
      push_neg at hc
      rcases List.mem_cons.1 hb with rfl | hb2
      · exact ⟨hc.1, hc.2⟩
      · rw [List.cons_append] at h
        injection h with h1 h2
        exact ih h2 base hb2

/-- **C3, amended witness.** -/
theorem mergeOne_append_inv_witness :
    getIoU ⟨0, 0, 200, 100⟩ ⟨500, 500, 200, 100⟩ ≤ 0.32 ∧
    ¬ nearlyContains ⟨0, 0, 200, 100⟩ ⟨500, 500, 200, 100⟩ :=
  mergeOne_append_inv ⟨1000, 1000⟩ [⟨0, 0, 200, 100⟩] ⟨500, 500, 200, 100⟩
    (by with_unfolding_all decide) ⟨0, 0, 200, 100⟩ (by decide)

end GenerateExam
